import Mathlib

/-!
# ArcMiner — verification of the spec against the sources

Shallow embedding of the ArcMiner repository:
* `src/server/routes.ts` — claim-history / total-claimed routes and the
  fixed-amount transfer filter;
* `src/server/storage.ts` — the in-memory claim store;
* `src/unnamed/part_002` — the current mining App (state machine, timers,
  decorative log stream, claim effects);
* `src/unnamed/part_000` — the earlier mining App variant (accumulatedReward,
  stop-and-claim).

Times are rational milliseconds, JS numbers are rationals, JS BigInt is ℤ.
-/

namespace ArcMiner

/-! ## Server constants (src/server/routes.ts) -/

def FAUCET_CONTRACT : String := "0xBd736A5D744A6364dd74B12Bb679d66360d7AeD9"

def USDC_ADDRESS : String := "0x3600000000000000000000000000000000000000"

/-- Raw token-transfer record of the arcscan feed (`ArcscanTokenTransfer`).
`contractAddress` is optional because the route reads it with `?.` -/
structure ArcscanTokenTransfer where
  hash : String
  «from» : String
  «to» : String
  value : String
  tokenSymbol : String
  tokenDecimal : String
  timeStamp : String
  contractAddress : Option String
deriving DecidableEq

/-! ## JS string primitives

The JS string operations the sources use (`toLowerCase`, `trim`, `split`,
`slice`, padding) are modelled on the character list underlying `String`, on
the ASCII fragment relevant to addresses and numerals. -/

/-- JS `toLowerCase` for the ASCII strings handled here. -/
def jsToLower (s : String) : String := ⟨s.data.map Char.toLower⟩

/-- Strips leading and trailing whitespace. -/
def trimChars (cs : List Char) : List Char :=
  ((cs.dropWhile Char.isWhitespace).reverse.dropWhile Char.isWhitespace).reverse

/-- JS `split` on a character predicate: always at least one (possibly empty)
group, a fresh group after each separator. -/
def splitChars (p : Char → Bool) (cs : List Char) : List (List Char) :=
  cs.foldr (fun c acc =>
    match acc with
    | [] => [[c]]
    | g :: gs => if p c then [] :: g :: gs else (c :: g) :: gs) [[]]

/-- JS `slice(0, n)` on a string. -/
def strTake (s : String) (n : ℕ) : String := ⟨s.data.take n⟩

/-! ## JS numeric string parsing -/

/-- Value of a hexadecimal digit character, if any. -/
def hexDigitVal (c : Char) : Option ℕ :=
  if c.isDigit then some (c.toNat - 48)
  else if 'a' ≤ c ∧ c ≤ 'f' then some (c.toNat - 87)
  else if 'A' ≤ c ∧ c ≤ 'F' then some (c.toNat - 55)
  else none

/-- Reads a non-empty digit string in the given base (digits valued by
`hexDigitVal`, rejected when ≥ base); `none` on the empty list or a bad digit. -/
def digitsToNat (base : ℕ) (cs : List Char) : Option ℕ :=
  if cs.isEmpty then none
  else cs.foldl (fun acc c =>
    match acc, hexDigitVal c with
    | some n, some d => if d < base then some (n * base + d) else none
    | _, _ => none) (some 0)

/-- JS `BigInt(string)`: trimmed; empty → 0; `0x`/`0o`/`0b` literals (unsigned);
otherwise optionally signed decimal digits; anything else throws (`none`). -/
def jsBigIntOfString (s : String) : Option ℤ :=
  match trimChars s.data with
  | [] => some 0
  | '0' :: 'x' :: rest => (digitsToNat 16 rest).map Int.ofNat
  | '0' :: 'X' :: rest => (digitsToNat 16 rest).map Int.ofNat
  | '0' :: 'o' :: rest => (digitsToNat 8 rest).map Int.ofNat
  | '0' :: 'O' :: rest => (digitsToNat 8 rest).map Int.ofNat
  | '0' :: 'b' :: rest => (digitsToNat 2 rest).map Int.ofNat
  | '0' :: 'B' :: rest => (digitsToNat 2 rest).map Int.ofNat
  | '+' :: rest => (digitsToNat 10 rest).map Int.ofNat
  | '-' :: rest => (digitsToNat 10 rest).map (fun n => -(n : ℤ))
  | cs => (digitsToNat 10 cs).map Int.ofNat

/-- JS `parseInt(string)` with default radix: trimmed, optional sign, `0x`
prefix for hex, otherwise longest leading run of decimal digits; `NaN` (`none`)
when no digit is read. -/
def jsParseInt (s : String) : Option ℤ :=
  let cs := trimChars s.data
  let signAndRest : ℤ × List Char :=
    match cs with
    | '+' :: r => (1, r)
    | '-' :: r => (-1, r)
    | r => (1, r)
  match signAndRest.2 with
  | '0' :: 'x' :: r => (digitsToNat 16 (r.takeWhile (fun c => (hexDigitVal c).isSome))).map
      (fun n => signAndRest.1 * n)
  | '0' :: 'X' :: r => (digitsToNat 16 (r.takeWhile (fun c => (hexDigitVal c).isSome))).map
      (fun n => signAndRest.1 * n)
  | r => (digitsToNat 10 (r.takeWhile Char.isDigit)).map (fun n => signAndRest.1 * n)

/-- Left-pads a string with zeros up to the given length. -/
def padZeros (s : String) (len : ℕ) : String :=
  ⟨List.replicate (len - s.data.length) '0' ++ s.data⟩

/-- JS `Number.prototype.toFixed(f)` for the non-negative rationals produced
here: round half up to `f` fractional digits and render; the rounding
`⌊q·10^f + 1/2⌋` is computed on the reduced numerator and denominator. -/
def toFixedQ (f : ℕ) (q : ℚ) : String :=
  let n : ℕ := (2 * q.num.toNat * 10 ^ f + q.den) / (2 * q.den)
  if f = 0 then toString n
  else toString (n / 10 ^ f) ++ "." ++ padZeros (toString (n % 10 ^ f)) f

/-! ## The fixed-amount transfer filter -/

/-- `BigInt(200) * BigInt(10 ** 6)` — the exact transfer value a claim must have. -/
def TARGET_VALUE : ℤ := 200 * 10 ^ 6

/-- `tx.contractAddress?.toLowerCase() || ''` -/
def optLower (o : Option String) : String :=
  match o with
  | some s => jsToLower s
  | none => ""

/-- The filter of the GET /api/claim-history handler (routes.ts lines 56–70):
sender is the faucet, token contract is USDC (case-insensitive), value parses
as a BigInt equal to `TARGET_VALUE`; a failing `BigInt` parse is caught and
excludes the record. -/
def claimHistoryTxFilter (tx : ArcscanTokenTransfer) : Bool :=
  let fromLower := jsToLower tx.«from»
  let contractLower := jsToLower FAUCET_CONTRACT
  let tokenLower := optLower tx.contractAddress
  let usdcLower := jsToLower USDC_ADDRESS
  match jsBigIntOfString tx.value with
  | some valueBigInt =>
      fromLower == contractLower && tokenLower == usdcLower && valueBigInt == TARGET_VALUE
  | none => false

/-- The filter of the GET /api/total-claimed handler (routes.ts lines 121–135);
the source duplicates the claim-history filter verbatim. -/
def totalClaimedTxFilter (tx : ArcscanTokenTransfer) : Bool :=
  let fromLower := jsToLower tx.«from»
  let contractLower := jsToLower FAUCET_CONTRACT
  let tokenLower := optLower tx.contractAddress
  let usdcLower := jsToLower USDC_ADDRESS
  match jsBigIntOfString tx.value with
  | some valueBigInt =>
      fromLower == contractLower && tokenLower == usdcLower && valueBigInt == TARGET_VALUE
  | none => false

/-! ## Storage (src/server/storage.ts) -/

/-- A stored or feed-derived claim ledger entry; `claimedAt` is epoch ms. -/
structure ClaimHistory where
  id : String
  walletAddress : String
  amount : String
  transactionHash : Option String
  claimedAt : ℤ
deriving DecidableEq

/-- `Map.set` semantics on the value list: replace in place on an existing key,
append otherwise. -/
def mapSet (l : List ClaimHistory) (c : ClaimHistory) : List ClaimHistory :=
  if l.any (fun x => x.id == c.id) then
    l.map (fun x => if x.id == c.id then c else x)
  else l ++ [c]

/-- Descending order on `claimedAt` used by the storage sorts
(`(a, b) => b.claimedAt - a.claimedAt`). -/
def claimDescRel (a b : ClaimHistory) : Prop := b.claimedAt ≤ a.claimedAt

instance : DecidableRel claimDescRel :=
  fun a b => inferInstanceAs (Decidable (b.claimedAt ≤ a.claimedAt))

instance : IsTotal ClaimHistory claimDescRel :=
  ⟨fun a b => le_total b.claimedAt a.claimedAt⟩

instance : IsTrans ClaimHistory claimDescRel :=
  ⟨fun _ _ _ h1 h2 => le_trans h2 h1⟩

/-- The storage sort by `claimedAt` descending. -/
def sortByClaimedAtDesc (l : List ClaimHistory) : List ClaimHistory :=
  l.insertionSort claimDescRel

/-- `MemStorage.getClaimHistory(limit)`. -/
def getClaimHistory (store : List ClaimHistory) (limit : ℕ) : List ClaimHistory :=
  (sortByClaimedAtDesc store).take limit

/-- `MemStorage.getClaimHistoryByWallet`. -/
def getClaimHistoryByWallet (store : List ClaimHistory) (walletAddress : String) :
    List ClaimHistory :=
  sortByClaimedAtDesc
    (store.filter (fun claim => jsToLower claim.walletAddress == jsToLower walletAddress))

/-! ## POST /api/claim-history -/

/-- The POST body `{walletAddress, amount, transactionHash?}`. -/
structure InsertClaimBody where
  walletAddress : String
  amount : String
  transactionHash : Option String
deriving DecidableEq

/-- A non-negative fixed-point decimal string: digits, optionally a dot and
more digits. -/
def parseNonnegFixedPoint (s : String) : Option ℚ :=
  match splitChars (· = '.') s.data with
  | [ip] => (digitsToNat 10 ip).map (fun n => (n : ℚ))
  | [ip, fp] =>
    match digitsToNat 10 ip, digitsToNat 10 fp with
    | some i, some f => some ((i : ℚ) + (f : ℚ) / (10 : ℚ) ^ fp.length)
    | _, _ => none
  | _ => none

/-- Modelled from the spec: `insertClaimHistorySchema.parse` lives in
`@shared/schema`, which is not among the provided sources; per the spec it
"validates shape (non-empty address, amount parses as a non-negative
fixed-point decimal); fails with `ValidationError` on malformed input". -/
def validateInsertClaim (b : InsertClaimBody) : Except String InsertClaimBody :=
  if b.walletAddress = "" then
    .error "walletAddress: must be non-empty"
  else if (parseNonnegFixedPoint b.amount).isSome then .ok b
  else .error "amount: must be a non-negative fixed-point decimal"

/-- The HTTP result of the POST handler: 200 with the created entry, or
400 with an `{error}` body. -/
inductive PostClaimResponse
  | ok (entry : ClaimHistory)
  | badRequest (error : String)
deriving DecidableEq

/-- `MemStorage.createClaimHistory`: a fresh `randomUUID` id and the current
time are modelled as the explicit arguments `id` and `now`. -/
def createClaimHistory (store : List ClaimHistory) (b : InsertClaimBody) (id : String)
    (now : ℤ) : ClaimHistory × List ClaimHistory :=
  let claim : ClaimHistory :=
    { id := id, walletAddress := b.walletAddress, amount := b.amount,
      transactionHash := b.transactionHash, claimedAt := now }
  (claim, mapSet store claim)

/-- The POST /api/claim-history handler. -/
def postClaimHistory (store : List ClaimHistory) (b : InsertClaimBody) (id : String)
    (now : ℤ) : PostClaimResponse × List ClaimHistory :=
  match validateInsertClaim b with
  | .error e => (.badRequest e, store)
  | .ok v =>
    let created := createClaimHistory store v id now
    (.ok created.1, created.2)

/-! ## GET /api/claim-history and GET /api/total-claimed -/

/-- Outcome of fetching the arcscan feed, as distinguished by the handlers:
the fetch throws, the response is not ok, `response.json()` throws, or a
parsed payload with its `status` string and optional `result` array. -/
inductive FeedOutcome
  | netError
  | httpError
  | badJson
  | payload (status : String) (result : Option (List ArcscanTokenTransfer))

/-- A feed-derived entry as produced by the claim-history map step. -/
structure FeedClaimEntry where
  id : String
  walletAddress : String
  amount : String
  transactionHash : String
  claimedAt : ℤ
deriving DecidableEq

/-- The map step of GET /api/claim-history (routes.ts lines 71–81). `none`
models a thrown exception: `toISOString` throws on an invalid date (an
unparseable `timeStamp`), and `BigInt(tx.value)` throws on an unparseable
value — either aborts the handler into its catch. `claimedAt` is the epoch-ms
value rendered by `toISOString`. -/
def txToEntry (tx : ArcscanTokenTransfer) : Option FeedClaimEntry :=
  match jsParseInt tx.timeStamp, jsBigIntOfString tx.value with
  | some ts, some v =>
    let amount : String :=
      match jsParseInt (if tx.tokenDecimal = "" then "6" else tx.tokenDecimal) with
      | none => "NaN"
      | some d => toFixedQ 6 ((v : ℚ) / (10 : ℚ) ^ d)
    some { id := strTake tx.hash 8, walletAddress := tx.«to», amount := amount,
           transactionHash := tx.hash, claimedAt := ts * 1000 }
  | _, _ => none

/-- Collects a list of options, failing when any element is `none`. -/
def allSome {α : Type} : List (Option α) → Option (List α)
  | [] => some []
  | none :: _ => none
  | some a :: rest => (allSome rest).map (a :: ·)

/-- The JSON body answered by GET /api/claim-history: either the feed-derived
entries or the locally stored fallback entries. -/
inductive ClaimHistoryResponse
  | feedEntries (entries : List FeedClaimEntry)
  | localEntries (entries : List ClaimHistory)
deriving DecidableEq

/-- The local fallback of the claim-history route: `storage.getClaimHistory(50)`. -/
def localFallback (store : List ClaimHistory) : List ClaimHistory :=
  getClaimHistory store 50

/-- The GET /api/claim-history handler. A fetch error, a non-ok response or a
JSON parse failure lands in the catch and answers the local fallback; a parsed
payload whose status is not "1" or whose result is missing answers `[]`;
otherwise the filtered, mapped feed is answered (a throw inside the map also
lands in the catch). The handler never fails: every branch answers 200. -/
def getClaimHistoryRoute (feed : FeedOutcome) (store : List ClaimHistory) :
    ClaimHistoryResponse :=
  match feed with
  | .payload status result =>
    match result with
    | none => .feedEntries []
    | some txs =>
      if status == "1" then
        match allSome ((txs.filter claimHistoryTxFilter).map txToEntry) with
        | some entries => .feedEntries entries
        | none => .localEntries (localFallback store)
      else .feedEntries []
  | _ => .localEntries (localFallback store)

/-- The `{totalClaimed, claimCount}` body of GET /api/total-claimed. -/
structure TotalClaimedResponse where
  totalClaimed : String
  claimCount : ℕ
deriving DecidableEq

/-- One summand of the total-claimed reduce:
`Number(BigInt(tx.value)) / Math.pow(10, parseInt(tx.tokenDecimal || '6'))`;
`none` models NaN (from an unparseable decimal count). The BigInt parse cannot
throw here because the filter already required it to succeed; a `none` value
is mapped to NaN as well so the function stays total. -/
def txAmountQ (tx : ArcscanTokenTransfer) : Option ℚ :=
  match jsParseInt (if tx.tokenDecimal = "" then "6" else tx.tokenDecimal),
      jsBigIntOfString tx.value with
  | some d, some v => some ((v : ℚ) / (10 : ℚ) ^ d)
  | _, _ => none

/-- The GET /api/total-claimed handler. Every failure branch (fetch error,
non-ok response, JSON failure, status ≠ "1", missing result) answers
`{totalClaimed: "0", claimCount: 0}`; the handler never fails. `none` in the
running sum models NaN contagion, rendered "NaN" by `toFixed`. -/
def getTotalClaimedRoute (feed : FeedOutcome) : TotalClaimedResponse :=
  match feed with
  | .payload status result =>
    match result with
    | none => { totalClaimed := "0", claimCount := 0 }
    | some txs =>
      if status == "1" then
        let validClaims := txs.filter totalClaimedTxFilter
        let total : Option ℚ := validClaims.foldl
          (fun sum tx =>
            match sum, txAmountQ tx with
            | some a, some b => some (a + b)
            | _, _ => none) (some 0)
        { totalClaimed := match total with
            | some q => toFixedQ 2 q
            | none => "NaN",
          claimCount := validClaims.length }
      else { totalClaimed := "0", claimCount := 0 }
  | _ => { totalClaimed := "0", claimCount := 0 }

/-! ## Sample transfers for the filter round-trip -/

/-- A transfer of exactly 200 USDC (value 200·10⁶) from the faucet. -/
def sampleTx200 : ArcscanTokenTransfer :=
  { hash := "0xabc0123456789", «from» := FAUCET_CONTRACT, «to» := "0x1111",
    value := "200000000", tokenSymbol := "USDC", tokenDecimal := "6",
    timeStamp := "1700000000", contractAddress := some USDC_ADDRESS }

/-- The identical transfer except `value = 199000000`. -/
def sampleTx199 : ArcscanTokenTransfer :=
  { sampleTx200 with value := "199000000" }

/-- A transfer whose value field fails integer parsing. -/
def sampleTxBadValue : ArcscanTokenTransfer :=
  { sampleTx200 with value := "not-a-number" }

/-! ## The mining App (src/unnamed/part_002)

The App component's state hooks, timer effect and handlers, embedded as a
state machine. Wall-clock instants (`Date.now()`) are explicit rational
arguments; the two `setInterval` timers are modelled as `tick` / `logTick`
steps that are only live while `miningState = mining` (the effect cleans both
intervals up whenever the state leaves `mining`). Decorative log messages are
tracked by their event type; the random draws feeding the decorative branches
are explicit arguments. -/

/-- The `miningState` hook values. -/
inductive MiningState
  | idle
  | mining
  | paused
  | completed
deriving DecidableEq

/-- The decorative log event types. -/
inductive LogType
  | info
  | share
  | block
  | reward
deriving DecidableEq

/-- The App component state hooks relevant to the session engine.
`emittedLogs` is the full emission trace of `addLog` since the last
`setMiningLogs([])` (the rendered buffer additionally keeps only the last 51
entries via `prev.slice(-50)`, which does not affect emission order). -/
structure AppState where
  miningState : MiningState
  progress : ℚ
  timeLeft : ℚ
  hashRate : ℚ
  pausedProgress : ℚ
  pausedTimeLeft : ℚ
  showStopWarning : Bool
  cpuEnabled : Bool
  gpuEnabled : Bool
  emittedLogs : List LogType
  blocksFound : ℕ
  sharesFound : ℕ
  canFindShares : Bool
  displayedReward : ℚ
deriving DecidableEq

/-- The values the mining effect captures when it starts:
`initialProgress = pausedProgress`, `remainingTime = pausedTimeLeft || 600000`,
`endTime = startTime + remainingTime`. -/
structure TimerCtx where
  initialProgress : ℚ
  remainingTime : ℚ
  endTime : ℚ
deriving DecidableEq

/-- App state plus the captured timer context of the currently running effect. -/
structure Machine where
  app : AppState
  ctx : TimerCtx
deriving DecidableEq

/-- `getHashRateRange`. -/
def getHashRateRange (cpu gpu : Bool) : ℚ × ℚ :=
  if cpu && gpu then (400, 700)
  else if gpu then (300, 500)
  else if cpu then (100, 200)
  else (0, 0)

/-- The mining effect body that runs when `miningState` becomes `mining`,
before its intervals fire: captures the timer context and logs the three
connection/info lines when the log is empty or the session starts from
scratch (`miningLogs.length === 0 || pausedProgress === 0`). -/
def miningEffectStart (s : AppState) (now : ℚ) : AppState × TimerCtx :=
  let remainingTime : ℚ := if s.pausedTimeLeft = 0 then 600000 else s.pausedTimeLeft
  let ctx : TimerCtx :=
    { initialProgress := s.pausedProgress, remainingTime := remainingTime,
      endTime := now + remainingTime }
  let s' :=
    if s.emittedLogs.isEmpty || s.pausedProgress = 0 then
      { s with emittedLogs := s.emittedLogs ++ [.info, .info, .info] }
    else s
  (s', ctx)

/-- One firing of the 100 ms progress interval at wall time `now` (the random
draw feeds only the decorative hashrate). Recomputes progress from the wall
clock; at `remaining ≤ 0` it completes the session, freezes progress at 100,
sets the displayed reward to 200, clears the interval (modelled by the
`mining` guard) and logs the reward line. -/
def tick (m : Machine) (now rand : ℚ) : Machine :=
  if m.app.miningState = .mining then
    let remaining := max 0 (m.ctx.endTime - now)
    let elapsed := m.ctx.remainingTime - remaining
    let additionalProgress := elapsed / 600000 * 100
    let p := min 100 (m.ctx.initialProgress + additionalProgress)
    let range := getHashRateRange m.app.cpuEnabled m.app.gpuEnabled
    let newHashRate := range.1 + rand * (range.2 - range.1)
    let app := { m.app with timeLeft := remaining, progress := p, hashRate := newHashRate }
    if remaining ≤ 0 then
      let done := { app with
        miningState := MiningState.completed
        progress := (100 : ℚ)
        displayedReward := (200 : ℚ)
        emittedLogs := app.emittedLogs ++ [LogType.reward] }
      { m with app := done }
    else { m with app := app }
  else m

/-- One firing of the 800 ms decorative log interval with random draw `rand`
in [0, 1): a block (enabling shares), a share when `canFindShares` (bumping
the displayed reward, clamped at 200), or a hashrate info line. -/
def logTick (m : Machine) (rand : ℚ) : Machine :=
  if m.app.miningState = .mining then
    let a := m.app
    if rand < 15 / 100 then
      let a' := { a with
        emittedLogs := a.emittedLogs ++ [LogType.block]
        blocksFound := a.blocksFound + 1
        canFindShares := true }
      { m with app := a' }
    else if rand < 45 / 100 then
      if a.canFindShares then
        let a' := { a with
          emittedLogs := a.emittedLogs ++ [LogType.share]
          sharesFound := a.sharesFound + 1
          displayedReward := min 200 (a.displayedReward + 200 / 100 * (100 / 600)) }
        { m with app := a' }
      else m
    else if rand < 60 / 100 then
      { m with app := { a with emittedLogs := a.emittedLogs ++ [LogType.info] } }
    else m
  else m

/-- `startMining` at wall time `now`: rejected when the wallet reached the
claim limit or no device is enabled; otherwise resets every session hook,
enters `mining` and runs the effect (which captures a fresh timer context). -/
def startMining (m : Machine) (now : ℚ) (hasReachedLimit : Bool) : Machine :=
  if hasReachedLimit then m
  else if !m.app.cpuEnabled && !m.app.gpuEnabled then m
  else
    let a := { m.app with
      miningState := MiningState.mining
      timeLeft := (600000 : ℚ)
      progress := (0 : ℚ)
      displayedReward := (0 : ℚ)
      pausedProgress := (0 : ℚ)
      pausedTimeLeft := (0 : ℚ)
      emittedLogs := ([] : List LogType)
      blocksFound := 0
      sharesFound := 0
      canFindShares := false }
    let started := miningEffectStart a now
    { app := started.1, ctx := started.2 }

/-- `pauseMining`: snapshots progress and remaining time, leaves `mining`
(stopping both intervals) and logs an info line. -/
def pauseMining (m : Machine) : Machine :=
  let a := { m.app with
    pausedProgress := m.app.progress
    pausedTimeLeft := m.app.timeLeft
    miningState := MiningState.paused
    emittedLogs := m.app.emittedLogs ++ [LogType.info] }
  { m with app := a }

/-- `continueMining` at wall time `now`: logs an info line, re-enters `mining`
and re-runs the effect, which captures a context continuing from the pause
snapshot (`endTime = now + pausedTimeLeft`). -/
def continueMining (m : Machine) (now : ℚ) : Machine :=
  let a := { m.app with
    emittedLogs := m.app.emittedLogs ++ [LogType.info]
    miningState := MiningState.mining }
  let started := miningEffectStart a now
  { app := started.1, ctx := started.2 }

/-- `confirmStop`: destructive reset of every session hook back to idle. -/
def confirmStop (m : Machine) : Machine :=
  let a := { m.app with
    showStopWarning := false
    miningState := MiningState.idle
    progress := (0 : ℚ)
    timeLeft := (600000 : ℚ)
    displayedReward := (0 : ℚ)
    pausedProgress := (0 : ℚ)
    pausedTimeLeft := (0 : ℚ)
    emittedLogs := []
    blocksFound := 0
    sharesFound := 0
    canFindShares := false }
  { m with app := a }

/-- The `isConfirmed` effect: reports the fixed `"200.000000"` ledger entry
for the connected wallet and transaction hash, then resets the session hooks
to idle (`timeLeft` is the one hook this effect does not touch). -/
def onClaimConfirmed (m : Machine) (address txHash : String) :
    Machine × InsertClaimBody :=
  let report : InsertClaimBody :=
    { walletAddress := address, amount := "200.000000", transactionHash := some txHash }
  let a := { m.app with
    miningState := MiningState.idle
    displayedReward := (0 : ℚ)
    progress := (0 : ℚ)
    pausedProgress := (0 : ℚ)
    pausedTimeLeft := (0 : ℚ)
    emittedLogs := []
    canFindShares := false
    blocksFound := 0
    sharesFound := 0 }
  ({ m with app := a }, report)

/-- A toast notification. -/
structure Toast where
  destructive : Bool
  title : String
  description : String
deriving DecidableEq

/-- The `writeError` effect: raises a destructive toast carrying the error
message verbatim; no session hook is written. -/
def onWriteError (m : Machine) (msg : String) : Machine × Toast :=
  (m, { destructive := true, title := "Claim Failed", description := msg })

/-- The user-visible and timer-driven operations of the App. `start`, `pause`,
`resume` and the stop-dialog operations are only applicable in the states in
which their buttons are rendered; `tick` and `logTick` fire only while the
intervals are live (`mining`); the claim effects can fire in any state. -/
inductive Op
  | start (now : ℚ) (hasReachedLimit : Bool)
  | pause
  | resume (now : ℚ)
  | openStop
  | confirmStop
  | cancelStop
  | tick (now rand : ℚ)
  | logTick (rand : ℚ)
  | claimConfirmed (address txHash : String)
  | claimFailed (msg : String)
  | toggleCpu
  | toggleGpu

/-- One step of the App machine. -/
def step (m : Machine) : Op → Machine
  | .start now hasReachedLimit =>
    if m.app.miningState = .idle then startMining m now hasReachedLimit else m
  | .pause => if m.app.miningState = .mining then pauseMining m else m
  | .resume now => if m.app.miningState = .paused then continueMining m now else m
  | .openStop =>
    if m.app.miningState = .mining ∨ m.app.miningState = .paused then
      { m with app := { m.app with showStopWarning := true } }
    else m
  | .confirmStop => confirmStop m
  | .cancelStop => { m with app := { m.app with showStopWarning := false } }
  | .tick now rand => tick m now rand
  | .logTick rand => logTick m rand
  | .claimConfirmed address txHash => (onClaimConfirmed m address txHash).1
  | .claimFailed msg => (onWriteError m msg).1
  | .toggleCpu =>
    if m.app.miningState = .mining ∨ m.app.miningState = .paused then m
    else { m with app := { m.app with cpuEnabled := !m.app.cpuEnabled } }
  | .toggleGpu =>
    if m.app.miningState = .mining ∨ m.app.miningState = .paused then m
    else { m with app := { m.app with gpuEnabled := !m.app.gpuEnabled } }

/-- The initial hook values: idle, 10-minute timer, CPU on, GPU off. -/
def initMachine : Machine :=
  { app := {
      miningState := MiningState.idle
      progress := 0
      timeLeft := 600000
      hashRate := 0
      pausedProgress := 0
      pausedTimeLeft := 0
      showStopWarning := false
      cpuEnabled := true
      gpuEnabled := false
      emittedLogs := []
      blocksFound := 0
      sharesFound := 0
      canFindShares := false
      displayedReward := 0 },
    ctx := { initialProgress := 0, remainingTime := 600000, endTime := 600000 } }

/-- Runs a sequence of operations from the initial state. -/
def runOps (ops : List Op) : Machine :=
  ops.foldl step initMachine

end ArcMiner

namespace ArcMiner.V0

/-! ## The earlier mining App variant (src/unnamed/part_000)

This variant stores `accumulatedReward` as a hook recomputed on each tick,
offers "Stop & Claim" from the pause dialog, and reports
`accumulatedReward.toFixed(6)` as the claimed amount on confirmation. -/

/-- The `miningState` hook values of the variant (`ready` instead of
`completed`). -/
inductive MState
  | idle
  | mining
  | paused
  | ready
deriving DecidableEq

/-- The App hooks of the variant relevant to the session engine. -/
structure AppState where
  miningState : MState
  progress : ℚ
  timeLeft : ℚ
  hashRate : ℚ
  accumulatedReward : ℚ
  pausedProgress : ℚ
  pausedReward : ℚ
  pausedTimeLeft : ℚ
  showPauseDialog : Bool
deriving DecidableEq

/-- The values the variant's mining effect captures when it starts
(`initialReward = pausedReward` is captured but unused by the tick body,
which recomputes the reward from the progress). -/
structure TimerCtx where
  initialProgress : ℚ
  initialReward : ℚ
  remainingTime : ℚ
  endTime : ℚ
deriving DecidableEq

/-- Variant App state plus the captured timer context. -/
structure Machine where
  app : AppState
  ctx : TimerCtx
deriving DecidableEq

/-- The variant's mining effect body: captures the timer context. -/
def miningEffectStart (s : AppState) (now : ℚ) : TimerCtx :=
  let remainingTime : ℚ := if s.pausedTimeLeft = 0 then 600000 else s.pausedTimeLeft
  { initialProgress := s.pausedProgress, initialReward := s.pausedReward,
    remainingTime := remainingTime, endTime := now + remainingTime }

/-- One firing of the variant's 100 ms interval: recomputes progress from the
wall clock and the reward as `min(200, (p / 100) * 200)`; at `remaining ≤ 0`
it enters `ready` and freezes the reward at 200. -/
def tick (m : Machine) (now rand : ℚ) : Machine :=
  if m.app.miningState = .mining then
    let remaining := max 0 (m.ctx.endTime - now)
    let elapsed := m.ctx.remainingTime - remaining
    let additionalProgress := elapsed / 600000 * 100
    let p := min 100 (m.ctx.initialProgress + additionalProgress)
    let accumulated := min 200 (p / 100 * 200)
    let a := { m.app with
      timeLeft := remaining
      progress := p
      accumulatedReward := accumulated
      hashRate := 45 + rand * 20 }
    if remaining ≤ 0 then
      { m with app := { a with miningState := MState.ready, accumulatedReward := (200 : ℚ) } }
    else { m with app := a }
  else m

/-- The variant's `startMining` at wall time `now`: rejected while the
global cooldown is positive; otherwise resets the session hooks, enters
`mining` and captures a fresh timer context. -/
def startMining (m : Machine) (now globalCooldown : ℚ) : Machine :=
  if 0 < globalCooldown then m
  else
    let a := { m.app with
      miningState := MState.mining
      timeLeft := (600000 : ℚ)
      progress := (0 : ℚ)
      accumulatedReward := (0 : ℚ)
      pausedProgress := (0 : ℚ)
      pausedReward := (0 : ℚ)
      pausedTimeLeft := (0 : ℚ) }
    { app := a, ctx := miningEffectStart a now }

/-- The variant's `pauseMining`: snapshots progress, reward and remaining
time, then opens the pause dialog. -/
def pauseMining (m : Machine) : Machine :=
  let a := { m.app with
    pausedProgress := m.app.progress
    pausedReward := m.app.accumulatedReward
    pausedTimeLeft := m.app.timeLeft
    miningState := MState.paused
    showPauseDialog := true }
  { m with app := a }

/-- The variant's `continueMining` at wall time `now`. -/
def continueMining (m : Machine) (now : ℚ) : Machine :=
  let a := { m.app with showPauseDialog := false, miningState := MState.mining }
  { app := a, ctx := miningEffectStart a now }

/-- `stopAndClaim` from the pause dialog: enters `ready` without touching the
accumulated reward, so a partial-session reward becomes claimable. -/
def stopAndClaim (m : Machine) : Machine :=
  { m with app := { m.app with showPauseDialog := false, miningState := MState.ready } }

/-- The variant's `isConfirmed` effect: reports
`accumulatedReward.toFixed(6)` as the claimed amount and resets the session
hooks to idle. -/
def onClaimConfirmed (m : Machine) (address txHash : String) :
    Machine × InsertClaimBody :=
  let report : InsertClaimBody :=
    { walletAddress := address, amount := toFixedQ 6 m.app.accumulatedReward,
      transactionHash := some txHash }
  let a := { m.app with
    miningState := MState.idle
    accumulatedReward := (0 : ℚ)
    progress := (0 : ℚ)
    pausedProgress := (0 : ℚ)
    pausedReward := (0 : ℚ)
    pausedTimeLeft := (0 : ℚ) }
  ({ m with app := a }, report)

/-- The variant's `writeError` effect: raises a destructive toast with the
message verbatim; no session hook is written. -/
def onWriteError (m : Machine) (msg : String) : Machine × Toast :=
  (m, { destructive := true, title := "Claim Failed", description := msg })

/-- The variant's initial hook values. -/
def initMachine : Machine :=
  { app := {
      miningState := MState.idle
      progress := 0
      timeLeft := 600000
      hashRate := 0
      accumulatedReward := 0
      pausedProgress := 0
      pausedReward := 0
      pausedTimeLeft := 0
      showPauseDialog := false },
    ctx := { initialProgress := 0, initialReward := 0, remainingTime := 600000,
             endTime := 600000 } }

end ArcMiner.V0

namespace ArcMiner

/-! ## Helper lemmas -/

/-- A claim just written by `Map.set` is among the stored values. -/
theorem mem_mapSet_self (l : List ClaimHistory) (c : ClaimHistory) : c ∈ mapSet l c := by
  unfold mapSet
  cases h : l.any (fun x => x.id == c.id) with
  | false => simp
  | true =>
    simp only [if_true]
    obtain ⟨x, hx, hid⟩ := List.any_eq_true.mp h
    exact List.mem_map.mpr ⟨x, hx, by simp [hid]⟩

/-- Membership is preserved by the storage sort. -/
theorem mem_sortByClaimedAtDesc {l : List ClaimHistory} {x : ClaimHistory} :
    x ∈ sortByClaimedAtDesc l ↔ x ∈ l :=
  List.mem_insertionSort claimDescRel

/-! ## C1 — the fixed-amount transfer filter -/

/-- C1: both `listRecentClaims` (GET /api/claim-history) and
`aggregateTotalClaimed` (GET /api/total-claimed) count a transfer record as a
claim entry iff its sender equals the distributor address and its token
contract equals the expected token address (both case-insensitively) and its
value parses as the integer `200 * 10^6` (`fixedClaimAmount * 10^tokenDecimals`);
a record whose value fails integer parsing is excluded, not an error. In
particular the `value = 200000000` sample is counted and the otherwise
identical `value = 199000000` sample is not. -/
theorem claim_filter_counts_exactly_fixed_transfers :
    (∀ tx : ArcscanTokenTransfer,
      claimHistoryTxFilter tx = true ↔
        (jsToLower tx.«from» = jsToLower FAUCET_CONTRACT ∧
         optLower tx.contractAddress = jsToLower USDC_ADDRESS ∧
         jsBigIntOfString tx.value = some (200 * 10 ^ 6)))
    ∧ (∀ tx : ArcscanTokenTransfer, totalClaimedTxFilter tx = claimHistoryTxFilter tx)
    ∧ (∀ (txs : List ArcscanTokenTransfer) (store : List ClaimHistory),
        getClaimHistoryRoute (.payload "1" (some txs)) store =
          match allSome ((txs.filter claimHistoryTxFilter).map txToEntry) with
          | some entries => .feedEntries entries
          | none => .localEntries (localFallback store))
    ∧ (∀ txs : List ArcscanTokenTransfer,
        (getTotalClaimedRoute (.payload "1" (some txs))).claimCount =
          (txs.filter claimHistoryTxFilter).length)
    ∧ claimHistoryTxFilter sampleTx200 = true
    ∧ claimHistoryTxFilter sampleTx199 = false
    ∧ claimHistoryTxFilter sampleTxBadValue = false := by
  refine ⟨?_, fun _ => rfl, fun _ _ => rfl, fun _ => rfl, by decide, by decide, by decide⟩
  intro tx
  unfold claimHistoryTxFilter
  cases h : jsBigIntOfString tx.value with
  | none => simp [h]
  | some v =>
    simp only [h, Bool.and_eq_true, beq_iff_eq, TARGET_VALUE, Option.some_inj]
    norm_num
    tauto

/-! ## C5 — claim-history fallback behaviour -/

/-- C5 (amended): when the feed fetch throws, the response is not ok, or the
payload fails JSON parsing, GET /api/claim-history silently answers the most
recent 50 locally stored entries ordered by `claimedAt` descending; a parsed
payload whose status is not "1" instead answers an empty array. -/
theorem claim_history_falls_back_on_feed_failure :
    ∀ store : List ClaimHistory,
      getClaimHistoryRoute .netError store = .localEntries (getClaimHistory store 50)
      ∧ getClaimHistoryRoute .httpError store = .localEntries (getClaimHistory store 50)
      ∧ getClaimHistoryRoute .badJson store = .localEntries (getClaimHistory store 50)
      ∧ List.Sorted claimDescRel (getClaimHistory store 50) := by
  intro store
  refine ⟨rfl, rfl, rfl, ?_⟩
  exact List.Pairwise.sublist (List.take_sublist 50 _)
    (List.sorted_insertionSort claimDescRel store)

/-- A locally stored claim entry used to exhibit the fallback behaviour. -/
def sampleLocalClaim : ClaimHistory :=
  { id := "id-1", walletAddress := "0xW", amount := "200.000000",
    transactionHash := some "0xabc", claimedAt := 1700000000000 }

/-- C5 counterexample: on a parsed payload with status "0" (a malformed-payload
case listed by the claim), the route answers the empty feed list, not the
locally stored entries. -/
theorem claim_history_status_zero_answers_empty :
    getClaimHistoryRoute (.payload "0" (some [sampleTx200])) [sampleLocalClaim]
        = .feedEntries []
      ∧ getClaimHistory [sampleLocalClaim] 50 = [sampleLocalClaim]
      ∧ ClaimHistoryResponse.feedEntries [] ≠
          .localEntries (getClaimHistory [sampleLocalClaim] 50) := by
  exact ⟨rfl, rfl, by decide⟩

/-! ## C6 — total-claimed failure behaviour -/

/-- C6 (amended): on every feed failure — unreachable feed, non-ok response,
JSON failure, status ≠ "1", or missing result — GET /api/total-claimed answers
exactly `{totalClaimed: "0", claimCount: 0}` (the handler is total: it never
throws or fails the caller). -/
theorem total_claimed_zero_on_feed_failure :
    getTotalClaimedRoute .netError = { totalClaimed := "0", claimCount := 0 }
    ∧ getTotalClaimedRoute .httpError = { totalClaimed := "0", claimCount := 0 }
    ∧ getTotalClaimedRoute .badJson = { totalClaimed := "0", claimCount := 0 }
    ∧ (∀ (status : String) (result : Option (List ArcscanTokenTransfer)),
        status ≠ "1" →
        getTotalClaimedRoute (.payload status result) =
          { totalClaimed := "0", claimCount := 0 })
    ∧ (∀ status : String,
        getTotalClaimedRoute (.payload status none) =
          { totalClaimed := "0", claimCount := 0 }) := by
  refine ⟨rfl, rfl, rfl, ?_, fun _ => rfl⟩
  intro status result h
  cases result with
  | none => rfl
  | some txs => simp [getTotalClaimedRoute, h]

/-- C6 witness: the fourth conjunct applied to a status-"0" payload. -/
theorem total_claimed_zero_on_feed_failure_witness :
    getTotalClaimedRoute (.payload "0" (some [sampleTx200])) =
      { totalClaimed := "0", claimCount := 0 } :=
  total_claimed_zero_on_feed_failure.2.2.2.1 "0" (some [sampleTx200]) (by decide)

/-- C6 counterexample: the failure answer is the string "0", not the "0.00"
stated by the claim. -/
theorem total_claimed_failure_is_not_zero_point_zero_zero :
    getTotalClaimedRoute .netError ≠ { totalClaimed := "0.00", claimCount := 0 } := by
  decide

/-! ## C7 — recordLocalClaim validation and read-back -/

/-- C7: POST /api/claim-history with an empty walletAddress answers 400 with an
error body and leaves storage unchanged; with valid fields it appends an entry
carrying the fresh id and current timestamp, and that entry is returned by a
subsequent `listClaimsForWallet` for the same address. (The schema itself is
modelled from the spec, as `@shared/schema` is not among the sources.) -/
theorem record_local_claim_validation_and_readback :
    (∀ (amount : String) (txh : Option String) (store : List ClaimHistory)
        (id : String) (now : ℤ),
        postClaimHistory store ⟨"", amount, txh⟩ id now =
          (.badRequest "walletAddress: must be non-empty", store))
    ∧ (∀ (b : InsertClaimBody) (store : List ClaimHistory) (id : String) (now : ℤ),
        b.walletAddress ≠ "" → (parseNonnegFixedPoint b.amount).isSome →
        (postClaimHistory store b id now).1 =
            .ok ⟨id, b.walletAddress, b.amount, b.transactionHash, now⟩
          ∧ (⟨id, b.walletAddress, b.amount, b.transactionHash, now⟩ : ClaimHistory)
              ∈ (postClaimHistory store b id now).2
          ∧ (⟨id, b.walletAddress, b.amount, b.transactionHash, now⟩ : ClaimHistory)
              ∈ getClaimHistoryByWallet (postClaimHistory store b id now).2
                  b.walletAddress) := by
  constructor
  · intro amount txh store id now
    rfl
  · intro b store id now hw hp
    have hv : validateInsertClaim b = .ok b := by
      unfold validateInsertClaim
      rw [if_neg hw, if_pos hp]
    have hpost : postClaimHistory store b id now =
        (.ok ⟨id, b.walletAddress, b.amount, b.transactionHash, now⟩,
          mapSet store ⟨id, b.walletAddress, b.amount, b.transactionHash, now⟩) := by
      unfold postClaimHistory
      rw [hv]
      rfl
    refine ⟨by rw [hpost], by rw [hpost]; exact mem_mapSet_self _ _, ?_⟩
    rw [hpost]
    unfold getClaimHistoryByWallet
    refine mem_sortByClaimedAtDesc.mpr (List.mem_filter.mpr ?_)
    exact ⟨mem_mapSet_self _ _, by simp⟩

/-- C7 witness: the validation theorem applied to a concrete valid body over
the empty store. -/
theorem record_local_claim_validation_and_readback_witness :
    (postClaimHistory [] ⟨"0xAbCd", "200.000000", some "0xabc"⟩ "uuid-1" 1700000000000).1 =
        .ok ⟨"uuid-1", "0xAbCd", "200.000000", some "0xabc", 1700000000000⟩
      ∧ (⟨"uuid-1", "0xAbCd", "200.000000", some "0xabc", 1700000000000⟩ : ClaimHistory)
          ∈ (postClaimHistory [] ⟨"0xAbCd", "200.000000", some "0xabc"⟩ "uuid-1"
              1700000000000).2
      ∧ (⟨"uuid-1", "0xAbCd", "200.000000", some "0xabc", 1700000000000⟩ : ClaimHistory)
          ∈ getClaimHistoryByWallet
              (postClaimHistory [] ⟨"0xAbCd", "200.000000", some "0xabc"⟩ "uuid-1"
                1700000000000).2 "0xAbCd" :=
  record_local_claim_validation_and_readback.2
    ⟨"0xAbCd", "200.000000", some "0xabc"⟩ [] "uuid-1" 1700000000000
    (by decide) (by decide)

/-! ## C8 — failed claim transactions -/

/-- C8: the `writeError` effect only raises a destructive toast carrying the
error message; no session hook is written, so a session in `completed` remains
`completed` with its progress and reward intact and the claim can be retried. -/
theorem claim_failure_leaves_session_intact :
    ∀ (m : Machine) (msg : String),
      (onWriteError m msg).1 = m
      ∧ step m (.claimFailed msg) = m
      ∧ (step m (.claimFailed msg)).app.miningState = m.app.miningState
      ∧ (step m (.claimFailed msg)).app.displayedReward = m.app.displayedReward
      ∧ (step m (.claimFailed msg)).app.progress = m.app.progress
      ∧ (onWriteError m msg).2.description = msg
      ∧ (onWriteError m msg).2.destructive = true := by
  intro m msg
  exact ⟨rfl, rfl, rfl, rfl, rfl, rfl, rfl⟩

end ArcMiner

namespace ArcMiner

/-! ## Tick lemmas for the part_002 timer -/

/-- A tick never changes the captured timer context. -/
theorem tick_ctx (m : Machine) (now rand : ℚ) : (tick m now rand).ctx = m.ctx := by
  unfold tick
  by_cases h : m.app.miningState = .mining
  · simp only [h, if_true]
    by_cases h2 : max 0 (m.ctx.endTime - now) ≤ 0
    · simp [h2]
    · simp [h2]
  · simp [h]

/-- A tick in any state other than `mining` is a no-op (the interval has been
cleaned up). -/
theorem tick_not_mining (m : Machine) (now rand : ℚ)
    (h : ¬ m.app.miningState = .mining) : tick m now rand = m := by
  unfold tick
  simp [h]

/-- A tick strictly before the session end recomputes progress and remaining
time from the wall clock and stays in `mining`. -/
theorem tick_run (m : Machine) (now rand : ℚ) (h : m.app.miningState = .mining)
    (hlt : now < m.ctx.endTime) :
    (tick m now rand).app.miningState = .mining
    ∧ (tick m now rand).app.progress =
        min 100 (m.ctx.initialProgress +
          (m.ctx.remainingTime - (m.ctx.endTime - now)) / 600000 * 100)
    ∧ (tick m now rand).app.timeLeft = m.ctx.endTime - now
    ∧ (tick m now rand).app.displayedReward = m.app.displayedReward := by
  have hpos : (0 : ℚ) < m.ctx.endTime - now := by linarith
  have hmax : max 0 (m.ctx.endTime - now) = m.ctx.endTime - now :=
    max_eq_right (le_of_lt hpos)
  have hnot : ¬ max 0 (m.ctx.endTime - now) ≤ 0 := by rw [hmax]; linarith
  unfold tick
  rw [if_pos h]
  simp only [if_neg hnot]
  simp only [hmax]
  exact ⟨h, trivial, trivial, trivial⟩

/-- A tick at or after the session end completes the session: progress is
frozen at 100 and the displayed reward is set to 200. -/
theorem tick_complete (m : Machine) (now rand : ℚ) (h : m.app.miningState = .mining)
    (hge : m.ctx.endTime ≤ now) :
    (tick m now rand).app.miningState = .completed
    ∧ (tick m now rand).app.progress = 100
    ∧ (tick m now rand).app.displayedReward = 200 := by
  have hmax : max 0 (m.ctx.endTime - now) = 0 := max_eq_left (by linarith)
  have hle : max 0 (m.ctx.endTime - now) ≤ 0 := by rw [hmax]
  unfold tick
  rw [if_pos h]
  simp only [if_pos hle]
  exact ⟨trivial, trivial, trivial⟩

/-- The part_000 variant's completion tick: at or after the session end the
state becomes `ready` and the accumulated reward is frozen at 200. -/
theorem v0_tick_complete (m : V0.Machine) (now rand : ℚ)
    (h : m.app.miningState = V0.MState.mining) (hge : m.ctx.endTime ≤ now) :
    (V0.tick m now rand).app.miningState = V0.MState.ready
    ∧ (V0.tick m now rand).app.accumulatedReward = 200 := by
  have hmax : max 0 (m.ctx.endTime - now) = 0 := max_eq_left (by linarith)
  have hle : max 0 (m.ctx.endTime - now) ≤ 0 := by rw [hmax]
  unfold V0.tick
  rw [if_pos h]
  simp only [if_pos hle]
  exact ⟨trivial, trivial⟩

/-! ## C2 — uninterrupted progress and completion -/

/-- Invariant maintained by ticks at times ≤ t after a fresh session start at
time 0, for t ≤ 600000: the captured timer context is the fresh one, and the
session is either still mining, or — only when t = 600000 — completed with
progress 100 and the reward frozen at 200. -/
def TickInv (t : ℚ) (m : Machine) : Prop :=
  m.ctx.initialProgress = 0 ∧ m.ctx.remainingTime = 600000 ∧ m.ctx.endTime = 600000 ∧
    (m.app.miningState = .mining ∨
      (t = 600000 ∧ m.app.miningState = .completed ∧ m.app.progress = 100 ∧
        m.app.displayedReward = 200))

/-- A fresh start at time 0 establishes the tick invariant. -/
theorem tickInv_start (t : ℚ) : TickInv t (step initMachine (.start 0 false)) := by
  refine ⟨?_, ?_, ?_, Or.inl ?_⟩ <;>
    simp [TickInv, step, initMachine, startMining, miningEffectStart]

/-- One tick at a time `u ≤ t` preserves the tick invariant. -/
theorem tickInv_step (t u rv : ℚ) (m : Machine) (hu : u ≤ t) (ht : t ≤ 600000)
    (hm : TickInv t m) : TickInv t (tick m u rv) := by
  obtain ⟨h1, h2, h3, hstate⟩ := hm
  have hctx := tick_ctx m u rv
  cases hstate with
  | inl hmine =>
    by_cases hlt : u < m.ctx.endTime
    · obtain ⟨hs, _, _, _⟩ := tick_run m u rv hmine hlt
      exact ⟨by rw [hctx]; exact h1, by rw [hctx]; exact h2, by rw [hctx]; exact h3,
        Or.inl hs⟩
    · have hge : m.ctx.endTime ≤ u := le_of_not_lt hlt
      have hteq : t = 600000 := by
        rw [h3] at hge
        linarith
      obtain ⟨hs, hp, hr⟩ := tick_complete m u rv hmine hge
      exact ⟨by rw [hctx]; exact h1, by rw [hctx]; exact h2, by rw [hctx]; exact h3,
        Or.inr ⟨hteq, hs, hp, hr⟩⟩
  | inr hdone =>
    obtain ⟨hteq, hs, hp, hr⟩ := hdone
    have hnoop : tick m u rv = m := tick_not_mining m u rv (by rw [hs]; simp)
    rw [hnoop]
    exact ⟨h1, h2, h3, Or.inr ⟨hteq, hs, hp, hr⟩⟩

/-- Any schedule of ticks at times ≤ t preserves the tick invariant. -/
theorem tickInv_fold (t : ℚ) (ht : t ≤ 600000) :
    ∀ (l : List (ℚ × ℚ)) (m : Machine), (∀ p ∈ l, p.1 ≤ t) → TickInv t m →
      TickInv t (l.foldl (fun acc p => tick acc p.1 p.2) m)
  | [], _, _, hm => hm
  | (u, rv) :: rest, m, hl, hm => by
    have h1 : u ≤ t := hl (u, rv) (List.mem_cons_self _ _)
    have hrest : ∀ p ∈ rest, p.1 ≤ t := fun p hp => hl p (List.mem_cons_of_mem _ hp)
    exact tickInv_fold t ht rest (tick m u rv) hrest (tickInv_step t u rv m h1 ht hm)

/-- C2: for every t in [0, 600000] and any schedule of interval firings at
times ≤ t, a session started at time 0 whose last tick is at time t shows
progress exactly min(100, t/600000·100); strictly before 600000 ms it is still
`mining`; at 600000 ms it is `completed` with the displayed reward frozen at
200; a tick on a completed session is a no-op (the interval was cleared on
completion), so the transition happens exactly once and later ticks never
change the reward; the part_000 variant likewise enters `ready` with
`accumulatedReward` frozen at 200. -/
theorem mining_progress_and_completion :
    (∀ (t r : ℚ) (l : List (ℚ × ℚ)),
      (∀ p ∈ l, p.1 ≤ t) → 0 ≤ t → t ≤ 600000 →
      (tick (l.foldl (fun acc p => tick acc p.1 p.2) (step initMachine (.start 0 false)))
            t r).app.progress
          = min 100 (t / 600000 * 100)
        ∧ (t < 600000 →
            (tick (l.foldl (fun acc p => tick acc p.1 p.2)
                (step initMachine (.start 0 false))) t r).app.miningState = .mining)
        ∧ (t = 600000 →
            (tick (l.foldl (fun acc p => tick acc p.1 p.2)
                  (step initMachine (.start 0 false))) t r).app.miningState = .completed
              ∧ (tick (l.foldl (fun acc p => tick acc p.1 p.2)
                    (step initMachine (.start 0 false))) t r).app.displayedReward = 200))
    ∧ (∀ (m : Machine) (now rand : ℚ), m.app.miningState = .completed →
        tick m now rand = m)
    ∧ (∀ (m : V0.Machine) (now rand : ℚ), m.app.miningState = V0.MState.mining →
        m.ctx.endTime ≤ now →
        (V0.tick m now rand).app.miningState = V0.MState.ready
          ∧ (V0.tick m now rand).app.accumulatedReward = 200) := by
  refine ⟨?_, ?_, v0_tick_complete⟩
  · intro t r l hl ht0 ht
    obtain ⟨h1, h2, h3, hstate⟩ := tickInv_fold t ht l _ hl (tickInv_start t)
    cases hstate with
    | inl hmine =>
      by_cases hteq : t = 600000
      · subst hteq
        have hge : (l.foldl (fun acc p => tick acc p.1 p.2)
            (step initMachine (.start 0 false))).ctx.endTime ≤ 600000 := le_of_eq h3
        obtain ⟨hs, hp, hr⟩ := tick_complete _ 600000 r hmine hge
        refine ⟨?_, fun hlt => absurd hlt (lt_irrefl _), fun _ => ⟨hs, hr⟩⟩
        rw [hp]
        norm_num
      · have hlt : t < 600000 := lt_of_le_of_ne ht hteq
        have hlt' : t < (l.foldl (fun acc p => tick acc p.1 p.2)
            (step initMachine (.start 0 false))).ctx.endTime := by rw [h3]; exact hlt
        obtain ⟨hs, hp, _, _⟩ := tick_run _ t r hmine hlt'
        refine ⟨?_, fun _ => hs, fun he => absurd he hteq⟩
        rw [hp, h1, h2, h3]
        have harg : (0 : ℚ) + (600000 - (600000 - t)) / 600000 * 100 = t / 600000 * 100 := by
          ring
        rw [harg]
    | inr hdone =>
      obtain ⟨hteq, hs, hp, hr⟩ := hdone
      have hnoop : tick (l.foldl (fun acc p => tick acc p.1 p.2)
          (step initMachine (.start 0 false))) t r = _ :=
        tick_not_mining _ t r (by rw [hs]; simp)
      rw [hnoop]
      subst hteq
      refine ⟨?_, fun hlt => absurd hlt (lt_irrefl _), fun _ => ⟨hs, hr⟩⟩
      rw [hp]
      norm_num
  · intro m now rand h
    exact tick_not_mining m now rand (by rw [h]; simp)

/-- C2 witness: a session started at time 0, ticked at 100 ms and last at
300000 ms, shows exactly 50% progress. -/
theorem mining_progress_and_completion_witness :
    (tick ([((100 : ℚ), (0 : ℚ))].foldl (fun acc p => tick acc p.1 p.2)
          (step initMachine (.start 0 false))) 300000 0).app.progress
        = min 100 ((300000 : ℚ) / 600000 * 100) :=
  (mining_progress_and_completion.1 300000 0 [(100, 0)]
    (by
      intro p hp
      simp only [List.mem_singleton] at hp
      rw [hp]
      norm_num)
    (by norm_num) (by norm_num)).1

end ArcMiner

namespace ArcMiner

/-! ## C3 — pause / resume -/

/-- Field equations for `continueMining`: the re-run effect captures a context
continuing from the pause snapshot. -/
theorem continueMining_fields (x : Machine) (r : ℚ) :
    (continueMining x r).app.miningState = .mining
    ∧ (continueMining x r).ctx.initialProgress = x.app.pausedProgress
    ∧ (continueMining x r).ctx.remainingTime
        = (if x.app.pausedTimeLeft = 0 then 600000 else x.app.pausedTimeLeft)
    ∧ (continueMining x r).ctx.endTime
        = r + (if x.app.pausedTimeLeft = 0 then 600000 else x.app.pausedTimeLeft) := by
  unfold continueMining miningEffectStart
  dsimp only
  refine ⟨?_, rfl, rfl, rfl⟩
  split_ifs <;> rfl

/-- C3: pausing a mining session freezes and snapshots the current progress
and remaining time; resuming at any wall time r continues exactly from the
snapshot — a tick at time u after resuming shows
progress = min(100, progressAtPause + (u-r)/600000·100) and
timeLeft = timeLeftAtPause - (u-r), independent of how long the session stayed
paused, and an immediate tick at u = r reproduces the paused progress
exactly. -/
theorem pause_resume_preserves_progress :
    ∀ m : Machine, m.app.miningState = .mining → 0 < m.app.timeLeft →
      m.app.progress ≤ 100 →
      (step m .pause).app.progress = m.app.progress
      ∧ (step m .pause).app.miningState = .paused
      ∧ (step m .pause).app.pausedProgress = m.app.progress
      ∧ (step m .pause).app.pausedTimeLeft = m.app.timeLeft
      ∧ (∀ r u rand : ℚ, r ≤ u → u - r < m.app.timeLeft →
          (tick (step (step m .pause) (.resume r)) u rand).app.progress
              = min 100 (m.app.progress + (u - r) / 600000 * 100)
            ∧ (tick (step (step m .pause) (.resume r)) u rand).app.timeLeft
              = m.app.timeLeft - (u - r))
      ∧ (∀ r rand : ℚ,
          (tick (step (step m .pause) (.resume r)) r rand).app.progress
            = m.app.progress) := by
  intro m hm htl hpr
  have hne : ¬ m.app.timeLeft = 0 := ne_of_gt htl
  have hpe : step m .pause = pauseMining m := by simp [step, hm]
  have hresume : ∀ r : ℚ,
      step (step m .pause) (.resume r) = continueMining (pauseMining m) r := by
    intro r
    rw [hpe]
    simp [step, pauseMining]
  have hcont : ∀ r u rand : ℚ, r ≤ u → u - r < m.app.timeLeft →
      (tick (step (step m .pause) (.resume r)) u rand).app.progress
          = min 100 (m.app.progress + (u - r) / 600000 * 100)
        ∧ (tick (step (step m .pause) (.resume r)) u rand).app.timeLeft
          = m.app.timeLeft - (u - r) := by
    intro r u rand hru hwin
    rw [hresume r]
    obtain ⟨hs, hip, hrt, het⟩ := continueMining_fields (pauseMining m) r
    have hps : (pauseMining m).app.pausedTimeLeft = m.app.timeLeft := rfl
    have hpp : (pauseMining m).app.pausedProgress = m.app.progress := rfl
    have hip' : (continueMining (pauseMining m) r).ctx.initialProgress
        = m.app.progress := by rw [hip, hpp]
    have hrt' : (continueMining (pauseMining m) r).ctx.remainingTime
        = m.app.timeLeft := by
      rw [hrt, hps]
      exact if_neg hne
    have het' : (continueMining (pauseMining m) r).ctx.endTime
        = r + m.app.timeLeft := by
      rw [het, hps, if_neg hne]
    have hlt : u < (continueMining (pauseMining m) r).ctx.endTime := by
      rw [het']
      linarith
    obtain ⟨_, hp, htleft, _⟩ := tick_run (continueMining (pauseMining m) r) u rand hs hlt
    constructor
    · rw [hp, hip', hrt', het']
      have harg : m.app.progress + (m.app.timeLeft - (r + m.app.timeLeft - u)) / 600000 * 100
          = m.app.progress + (u - r) / 600000 * 100 := by ring
      rw [harg]
    · rw [htleft, het']
      ring
  refine ⟨by rw [hpe]; rfl, by rw [hpe]; rfl, by rw [hpe]; rfl, by rw [hpe]; rfl, hcont, ?_⟩
  · intro r rand
    have h0 : r - r < m.app.timeLeft := by simpa using htl
    have := (hcont r r rand le_rfl h0).1
    rw [this]
    have harg : m.app.progress + (r - r) / 600000 * 100 = m.app.progress := by ring
    rw [harg]
    exact min_eq_right hpr

/-- A concrete mining session at 50% progress with 300000 ms remaining. -/
def midSessionMachine : Machine :=
  { app := {
      miningState := MiningState.mining
      progress := 50
      timeLeft := 300000
      hashRate := 0
      pausedProgress := 0
      pausedTimeLeft := 0
      showStopWarning := false
      cpuEnabled := true
      gpuEnabled := false
      emittedLogs := []
      blocksFound := 0
      sharesFound := 0
      canFindShares := false
      displayedReward := 100 },
    ctx := { initialProgress := 0, remainingTime := 600000, endTime := 600000 } }

/-- C3 witness: the mid-session machine paused and resumed at time 1000000,
immediately ticked, shows exactly 50% again. -/
theorem pause_resume_preserves_progress_witness :
    (tick (step (step midSessionMachine .pause) (.resume 1000000))
        1000000 0).app.progress = midSessionMachine.app.progress :=
  (pause_resume_preserves_progress midSessionMachine rfl
    (by simp [midSessionMachine])
    (by simp [midSessionMachine]; norm_num)).2.2.2.2.2 1000000 0

end ArcMiner

namespace ArcMiner

/-! ## C9 — share events are gated on a prior block event -/

/-- The ordering invariant of the decorative log stream: in every prefix of
the emission trace, a share event is preceded by some block event. -/
def shareAfterBlock (logs : List LogType) : Prop :=
  ∀ n : ℕ, LogType.share ∈ logs.take n → LogType.block ∈ logs.take n

/-- The empty trace satisfies the ordering invariant. -/
theorem shareAfterBlock_nil : shareAfterBlock [] := by
  intro n h
  simp at h

/-- A share-free trace satisfies the ordering invariant. -/
theorem shareAfterBlock_of_not_mem (logs : List LogType)
    (h : LogType.share ∉ logs) : shareAfterBlock logs :=
  fun _ hmem => absurd (List.mem_of_mem_take hmem) h

/-- Appending events preserves the ordering invariant provided any appended
share is justified by a block already in the trace. -/
theorem shareAfterBlock_append (logs ext : List LogType)
    (h : shareAfterBlock logs) (hext : LogType.share ∈ ext → LogType.block ∈ logs) :
    shareAfterBlock (logs ++ ext) := by
  intro n hmem
  rw [List.take_append_eq_append_take] at hmem ⊢
  rcases List.mem_append.mp hmem with h1 | h2
  · exact List.mem_append.mpr (Or.inl (h n h1))
  · have hne : n - logs.length ≠ 0 := by
      intro h0
      rw [h0] at h2
      simp at h2
    have hlen : logs.length ≤ n := by omega
    have hblock := hext (List.mem_of_mem_take h2)
    refine List.mem_append.mpr (Or.inl ?_)
    rw [List.take_of_length_le hlen]
    exact hblock

/-- The machine invariant behind C9: a raised gating flag is justified by a
block in the trace, and the trace satisfies the ordering invariant. -/
def LogInv (m : Machine) : Prop :=
  (m.app.canFindShares = true → LogType.block ∈ m.app.emittedLogs)
  ∧ shareAfterBlock m.app.emittedLogs

/-- A machine with a lowered flag and a share-free trace satisfies `LogInv`. -/
theorem logInv_of_no_share (m : Machine) (hf : m.app.canFindShares = false)
    (hs : LogType.share ∉ m.app.emittedLogs) : LogInv m := by
  constructor
  · intro hc
    rw [hf] at hc
    exact absurd hc (by simp)
  · exact shareAfterBlock_of_not_mem _ hs

/-- `startMining` either rejects (limit reached or no device) or starts a
fresh session with the gating flag lowered and a share-free trace. -/
theorem startMining_logs (m : Machine) (now : ℚ) (limit : Bool) :
    startMining m now limit = m ∨
    ((startMining m now limit).app.canFindShares = false ∧
     LogType.share ∉ (startMining m now limit).app.emittedLogs) := by
  unfold startMining miningEffectStart
  dsimp only
  split_ifs <;> first
    | exact Or.inl rfl
    | exact Or.inr ⟨rfl, by simp⟩

/-- `continueMining` keeps the gating flag and appends only info lines. -/
theorem continueMining_logs (x : Machine) (r : ℚ) :
    (continueMining x r).app.canFindShares = x.app.canFindShares
    ∧ ((continueMining x r).app.emittedLogs = x.app.emittedLogs ++ [.info]
       ∨ (continueMining x r).app.emittedLogs
          = x.app.emittedLogs ++ [.info] ++ [.info, .info, .info]) := by
  unfold continueMining miningEffectStart
  dsimp only
  split_ifs
  · exact ⟨rfl, Or.inr rfl⟩
  · exact ⟨rfl, Or.inl rfl⟩

/-- A progress tick keeps the gating flag and appends at most a reward line. -/
theorem tick_logs (m : Machine) (now rand : ℚ) :
    (tick m now rand).app.canFindShares = m.app.canFindShares
    ∧ ((tick m now rand).app.emittedLogs = m.app.emittedLogs
       ∨ (tick m now rand).app.emittedLogs = m.app.emittedLogs ++ [.reward]) := by
  unfold tick
  dsimp only
  split_ifs
  · exact ⟨rfl, Or.inr rfl⟩
  · exact ⟨rfl, Or.inl rfl⟩
  · exact ⟨rfl, Or.inl rfl⟩

/-- The four outcomes of a decorative log tick. -/
theorem logTick_cases (m : Machine) (rand : ℚ) :
    logTick m rand = m
    ∨ ((logTick m rand).app.canFindShares = true
        ∧ (logTick m rand).app.emittedLogs = m.app.emittedLogs ++ [.block])
    ∨ (m.app.canFindShares = true
        ∧ (logTick m rand).app.canFindShares = m.app.canFindShares
        ∧ (logTick m rand).app.emittedLogs = m.app.emittedLogs ++ [.share])
    ∨ ((logTick m rand).app.canFindShares = m.app.canFindShares
        ∧ (logTick m rand).app.emittedLogs = m.app.emittedLogs ++ [.info]) := by
  unfold logTick
  dsimp only
  split_ifs with h1 h2 h3 h4 h5
  · exact Or.inr (Or.inl ⟨rfl, rfl⟩)
  · exact Or.inr (Or.inr (Or.inl ⟨h4, rfl, rfl⟩))
  · exact Or.inl rfl
  · exact Or.inr (Or.inr (Or.inr ⟨rfl, rfl⟩))
  · exact Or.inl rfl
  · exact Or.inl rfl

/-- Every operation preserves the log invariant. -/
theorem logInv_step (m : Machine) (op : Op) (h : LogInv m) : LogInv (step m op) := by
  obtain ⟨hflag, hord⟩ := h
  cases op with
  | start now limit =>
    by_cases h1 : m.app.miningState = .idle
    · simp only [step, if_pos h1]
      rcases startMining_logs m now limit with he | ⟨hf, hs⟩
      · rw [he]
        exact ⟨hflag, hord⟩
      · exact logInv_of_no_share _ hf hs
    · simp only [step, if_neg h1]
      exact ⟨hflag, hord⟩
  | pause =>
    by_cases h1 : m.app.miningState = .mining
    · simp only [step, if_pos h1]
      constructor
      · intro hc
        exact List.mem_append.mpr (Or.inl (hflag hc))
      · exact shareAfterBlock_append _ [.info] hord (by intro hm; simp at hm)
    · simp only [step, if_neg h1]
      exact ⟨hflag, hord⟩
  | resume r =>
    by_cases h1 : m.app.miningState = .paused
    · simp only [step, if_pos h1]
      obtain ⟨hf, hlogs⟩ := continueMining_logs m r
      have hord1 : shareAfterBlock (m.app.emittedLogs ++ [.info]) :=
        shareAfterBlock_append _ _ hord (by intro hm; simp at hm)
      constructor
      · intro hc
        rw [hf] at hc
        rcases hlogs with he | he <;> rw [he]
        · exact List.mem_append.mpr (Or.inl (hflag hc))
        · exact List.mem_append.mpr (Or.inl (List.mem_append.mpr (Or.inl (hflag hc))))
      · rcases hlogs with he | he <;> rw [he]
        · exact hord1
        · exact shareAfterBlock_append _ _ hord1 (by intro hm; simp at hm)
    · simp only [step, if_neg h1]
      exact ⟨hflag, hord⟩
  | openStop =>
    by_cases h1 : m.app.miningState = .mining ∨ m.app.miningState = .paused
    · simp only [step, if_pos h1]
      exact ⟨hflag, hord⟩
    · simp only [step, if_neg h1]
      exact ⟨hflag, hord⟩
  | confirmStop =>
    exact logInv_of_no_share _ rfl (by simp [step, confirmStop])
  | cancelStop =>
    exact ⟨hflag, hord⟩
  | tick now rand =>
    show LogInv (tick m now rand)
    obtain ⟨hf, hlogs⟩ := tick_logs m now rand
    constructor
    · intro hc
      rw [hf] at hc
      rcases hlogs with he | he <;> rw [he]
      · exact hflag hc
      · exact List.mem_append.mpr (Or.inl (hflag hc))
    · rcases hlogs with he | he
      · show shareAfterBlock (tick m now rand).app.emittedLogs
        rw [he]
        exact hord
      · show shareAfterBlock (tick m now rand).app.emittedLogs
        rw [he]
        exact shareAfterBlock_append _ _ hord (by intro hm; simp at hm)
  | logTick rand =>
    show LogInv (logTick m rand)
    rcases logTick_cases m rand with he | ⟨hf, he⟩ | ⟨hm, hf, he⟩ | ⟨hf, he⟩
    · show LogInv (logTick m rand)
      rw [he]
      exact ⟨hflag, hord⟩
    · constructor
      · intro _
        show LogType.block ∈ (logTick m rand).app.emittedLogs
        rw [he]
        exact List.mem_append.mpr (Or.inr (by simp))
      · show shareAfterBlock (logTick m rand).app.emittedLogs
        rw [he]
        exact shareAfterBlock_append _ _ hord (by intro hm; simp at hm)
    · constructor
      · intro hc
        rw [hf] at hc
        show LogType.block ∈ (logTick m rand).app.emittedLogs
        rw [he]
        exact List.mem_append.mpr (Or.inl (hflag hc))
      · show shareAfterBlock (logTick m rand).app.emittedLogs
        rw [he]
        exact shareAfterBlock_append _ _ hord (fun _ => hflag hm)
    · constructor
      · intro hc
        rw [hf] at hc
        show LogType.block ∈ (logTick m rand).app.emittedLogs
        rw [he]
        exact List.mem_append.mpr (Or.inl (hflag hc))
      · show shareAfterBlock (logTick m rand).app.emittedLogs
        rw [he]
        exact shareAfterBlock_append _ _ hord (by intro hm'; simp at hm')
  | claimConfirmed a h =>
    exact logInv_of_no_share _ rfl (by simp [step, onClaimConfirmed])
  | claimFailed msg =>
    exact ⟨hflag, hord⟩
  | toggleCpu =>
    by_cases h1 : m.app.miningState = .mining ∨ m.app.miningState = .paused
    · simp only [step, if_pos h1]
      exact ⟨hflag, hord⟩
    · simp only [step, if_neg h1]
      exact ⟨hflag, hord⟩
  | toggleGpu =>
    by_cases h1 : m.app.miningState = .mining ∨ m.app.miningState = .paused
    · simp only [step, if_pos h1]
      exact ⟨hflag, hord⟩
    · simp only [step, if_neg h1]
      exact ⟨hflag, hord⟩

/-- The log invariant holds along every run from the initial state. -/
theorem logInv_fold : ∀ (ops : List Op) (m : Machine), LogInv m →
    LogInv (ops.foldl step m)
  | [], _, h => h
  | op :: rest, m, h => logInv_fold rest (step m op) (logInv_step m op h)

/-- C9: along every operation sequence, the emitted decorative log stream
never shows a share event before a block event has occurred since the last
session start (traces are cleared on start, stop and successful claim); and a
successful `startMining` (idle, limit not reached, a device enabled) lowers
the gating flag. -/
theorem share_only_after_block :
    (∀ ops : List Op, shareAfterBlock (runOps ops).app.emittedLogs)
    ∧ (∀ (m : Machine) (now : ℚ), m.app.miningState = .idle →
        (m.app.cpuEnabled || m.app.gpuEnabled) = true →
        (step m (.start now false)).app.canFindShares = false) := by
  constructor
  · intro ops
    exact (logInv_fold ops initMachine (logInv_of_no_share _ rfl (by simp [initMachine]))).2
  · intro m now hidle hdev
    simp only [step, if_pos hidle]
    unfold startMining miningEffectStart
    have hg : (!m.app.cpuEnabled && !m.app.gpuEnabled) = false := by
      rcases Bool.or_eq_true_iff.mp hdev with h | h <;> simp [h]
    dsimp only
    rw [if_neg (by simp), if_neg (by simp [hg])]
    split_ifs <;> rfl

/-- C9 witness: the gating-flag conjunct applied to the initial machine. -/
theorem share_only_after_block_witness :
    (step initMachine (.start 0 false)).app.canFindShares = false :=
  share_only_after_block.2 initMachine 0 rfl rfl

end ArcMiner

namespace ArcMiner

/-! ## C10 — the displayed reward never exceeds 200 -/

/-- The reward bound invariant: the displayed reward lies in [0, 200]. -/
def RewardInv (m : Machine) : Prop :=
  0 ≤ m.app.displayedReward ∧ m.app.displayedReward ≤ 200

/-- Every operation preserves the reward bound. -/
theorem rewardInv_step (m : Machine) (op : Op) (h : RewardInv m) :
    RewardInv (step m op) := by
  obtain ⟨h0, h200⟩ := h
  cases op with
  | start now limit =>
    by_cases h1 : m.app.miningState = .idle
    · simp only [step, if_pos h1]
      unfold startMining miningEffectStart RewardInv
      dsimp only
      split_ifs <;> first
        | exact ⟨h0, h200⟩
        | exact ⟨le_refl 0, by norm_num⟩
    · simp only [step, if_neg h1]
      exact ⟨h0, h200⟩
  | pause =>
    simp only [step]
    split_ifs
    · exact ⟨h0, h200⟩
    · exact ⟨h0, h200⟩
  | resume r =>
    simp only [step]
    split_ifs with h1
    · unfold continueMining miningEffectStart RewardInv
      dsimp only
      split_ifs <;> exact ⟨h0, h200⟩
    · exact ⟨h0, h200⟩
  | openStop =>
    simp only [step]
    split_ifs <;> exact ⟨h0, h200⟩
  | confirmStop =>
    exact ⟨le_refl 0, by show (0 : ℚ) ≤ 200; norm_num⟩
  | cancelStop =>
    exact ⟨h0, h200⟩
  | tick now rand =>
    show RewardInv (tick m now rand)
    unfold tick RewardInv
    dsimp only
    split_ifs
    · exact ⟨by norm_num, le_refl 200⟩
    · exact ⟨h0, h200⟩
    · exact ⟨h0, h200⟩
  | logTick rand =>
    show RewardInv (logTick m rand)
    unfold logTick RewardInv
    dsimp only
    split_ifs
    · exact ⟨h0, h200⟩
    · refine ⟨le_min (by norm_num) ?_, min_le_left _ _⟩
      have : (0 : ℚ) ≤ 200 / 100 * (100 / 600) := by norm_num
      linarith
    · exact ⟨h0, h200⟩
    · exact ⟨h0, h200⟩
    · exact ⟨h0, h200⟩
    · exact ⟨h0, h200⟩
  | claimConfirmed a h =>
    exact ⟨le_refl 0, by show (0 : ℚ) ≤ 200; norm_num⟩
  | claimFailed msg =>
    exact ⟨h0, h200⟩
  | toggleCpu =>
    simp only [step]
    split_ifs <;> exact ⟨h0, h200⟩
  | toggleGpu =>
    simp only [step]
    split_ifs <;> exact ⟨h0, h200⟩

/-- The reward bound holds along every run. -/
theorem rewardInv_fold : ∀ (ops : List Op) (m : Machine), RewardInv m →
    RewardInv (ops.foldl step m)
  | [], _, h => h
  | op :: rest, m, h => rewardInv_fold rest (step m op) (rewardInv_step m op h)

/-- C10: under every operation sequence the displayed reward counter stays in
[0, 200]; the completion tick sets it to exactly 200; a share event clamps its
increment at 200; and stop-confirmation, successful claim, and a successful
start each reset it to 0. -/
theorem displayed_reward_bounded :
    (∀ ops : List Op, 0 ≤ (runOps ops).app.displayedReward
        ∧ (runOps ops).app.displayedReward ≤ 200)
    ∧ (∀ m : Machine, (step m .confirmStop).app.displayedReward = 0)
    ∧ (∀ (m : Machine) (a h : String),
        (step m (.claimConfirmed a h)).app.displayedReward = 0)
    ∧ (∀ (m : Machine) (now rand : ℚ), m.app.miningState = .mining →
        m.ctx.endTime ≤ now → (tick m now rand).app.displayedReward = 200)
    ∧ (∀ (m : Machine) (rand : ℚ), m.app.displayedReward ≤ 200 →
        (logTick m rand).app.displayedReward ≤ 200)
    ∧ (∀ (m : Machine) (now : ℚ), m.app.miningState = .idle →
        (m.app.cpuEnabled || m.app.gpuEnabled) = true →
        (step m (.start now false)).app.displayedReward = 0) := by
  refine ⟨?_, fun _ => rfl, fun _ _ _ => rfl, ?_, ?_, ?_⟩
  · intro ops
    exact rewardInv_fold ops initMachine ⟨le_refl 0, by show (0 : ℚ) ≤ 200; norm_num⟩
  · intro m now rand hm hge
    exact (tick_complete m now rand hm hge).2.2
  · intro m rand h200
    unfold logTick
    dsimp only
    split_ifs
    · exact h200
    · exact min_le_left _ _
    · exact h200
    · exact h200
    · exact h200
    · exact h200
  · intro m now hidle hdev
    simp only [step, if_pos hidle]
    unfold startMining miningEffectStart
    have hg : (!m.app.cpuEnabled && !m.app.gpuEnabled) = false := by
      rcases Bool.or_eq_true_iff.mp hdev with h | h <;> simp [h]
    dsimp only
    rw [if_neg (by simp), if_neg (by simp [hg])]
    split_ifs <;> rfl

/-- C10 witness: the completion conjunct applied to the mid-session machine
ticked past its end time. -/
theorem displayed_reward_bounded_witness :
    (tick midSessionMachine 700000 0).app.displayedReward = 200 :=
  displayed_reward_bounded.2.2.2.1 midSessionMachine 700000 0 rfl
    (by simp [midSessionMachine]; norm_num)

end ArcMiner

namespace ArcMiner

/-! ## C4 — what a confirmed claim reports -/

/-- The part_000 variant's running tick strictly before the session end:
progress and the accumulated reward are recomputed from the wall clock. -/
theorem v0_tick_run (m : V0.Machine) (now rand : ℚ)
    (h : m.app.miningState = V0.MState.mining) (hlt : now < m.ctx.endTime) :
    (V0.tick m now rand).app.miningState = V0.MState.mining
    ∧ (V0.tick m now rand).app.accumulatedReward
        = min 200 (min 100 (m.ctx.initialProgress +
            (m.ctx.remainingTime - (m.ctx.endTime - now)) / 600000 * 100) / 100 * 200)
    ∧ (V0.tick m now rand).app.timeLeft = m.ctx.endTime - now := by
  have hpos : (0 : ℚ) < m.ctx.endTime - now := by linarith
  have hmax : max 0 (m.ctx.endTime - now) = m.ctx.endTime - now :=
    max_eq_right (le_of_lt hpos)
  have hnot : ¬ max 0 (m.ctx.endTime - now) ≤ 0 := by rw [hmax]; linarith
  unfold V0.tick
  rw [if_pos h]
  simp only [if_neg hnot]
  simp only [hmax]
  exact ⟨h, trivial, trivial⟩

/-- C4 (amended): on a confirmed claim transaction both App variants reset the
session hooks to idle; the part_002 variant always reports the fixed amount
"200.000000", while the part_000 variant reports
`accumulatedReward.toFixed(6)` — "200.000000" whenever the session completed
with the full reward of 200, but a partial amount when the session was ended
early via stop-and-claim. -/
theorem confirmed_claim_reports_and_resets :
    (∀ (m : Machine) (address txHash : String),
      (onClaimConfirmed m address txHash).2 =
          { walletAddress := address, amount := "200.000000",
            transactionHash := some txHash }
        ∧ (onClaimConfirmed m address txHash).1.app.miningState = .idle
        ∧ (onClaimConfirmed m address txHash).1.app.progress = 0
        ∧ (onClaimConfirmed m address txHash).1.app.displayedReward = 0
        ∧ (onClaimConfirmed m address txHash).1.app.pausedProgress = 0
        ∧ (onClaimConfirmed m address txHash).1.app.pausedTimeLeft = 0)
    ∧ (∀ (m : V0.Machine) (address txHash : String),
      (V0.onClaimConfirmed m address txHash).2 =
          { walletAddress := address, amount := toFixedQ 6 m.app.accumulatedReward,
            transactionHash := some txHash }
        ∧ (V0.onClaimConfirmed m address txHash).1.app.miningState = V0.MState.idle
        ∧ (V0.onClaimConfirmed m address txHash).1.app.accumulatedReward = 0
        ∧ (V0.onClaimConfirmed m address txHash).1.app.progress = 0
        ∧ (V0.onClaimConfirmed m address txHash).1.app.pausedReward = 0)
    ∧ (∀ (m : V0.Machine) (address txHash : String),
        m.app.accumulatedReward = 200 →
        (V0.onClaimConfirmed m address txHash).2.amount = "200.000000") := by
  refine ⟨fun m a h => ⟨rfl, rfl, rfl, rfl, rfl, rfl⟩,
    fun m a h => ⟨rfl, rfl, rfl, rfl, rfl⟩, ?_⟩
  intro m a h hacc
  show toFixedQ 6 m.app.accumulatedReward = "200.000000"
  rw [hacc]
  decide

/-- C4 witness: a full-reward part_000 session reports "200.000000". -/
theorem confirmed_claim_reports_and_resets_witness :
    (V0.onClaimConfirmed
        { V0.initMachine with
          app := { V0.initMachine.app with
                   miningState := V0.MState.ready, accumulatedReward := 200 } }
        "0xW" "0xabc").2.amount = "200.000000" :=
  confirmed_claim_reports_and_resets.2.2 _ "0xW" "0xabc" rfl

/-- C4 counterexample: in the part_000 variant a session started at time 0,
ticked at 300000 ms (50% progress, accumulated reward 100), paused, ended via
the pause dialog's stop-and-claim, and then confirmed, reports the partial
amount "100.000000" — not "200.000000". -/
theorem confirmed_claim_partial_amount_possible :
    (V0.onClaimConfirmed
        (V0.stopAndClaim (V0.pauseMining
          (V0.tick (V0.startMining V0.initMachine 0 0) 300000 0)))
        "0xW" "0xabc").2.amount = "100.000000"
    ∧ "100.000000" ≠ "200.000000" := by
  have hamount : ∀ (x : V0.Machine) (a h : String),
      (V0.onClaimConfirmed x a h).2.amount = toFixedQ 6 x.app.accumulatedReward :=
    fun _ _ _ => rfl
  have hstop : ∀ x : V0.Machine,
      (V0.stopAndClaim x).app.accumulatedReward = x.app.accumulatedReward :=
    fun _ => rfl
  have hpause : ∀ x : V0.Machine,
      (V0.pauseMining x).app.accumulatedReward = x.app.accumulatedReward :=
    fun _ => rfl
  have hM0 : V0.startMining V0.initMachine 0 0 =
      { app := { miningState := V0.MState.mining, progress := 0, timeLeft := 600000,
                 hashRate := 0, accumulatedReward := 0, pausedProgress := 0,
                 pausedReward := 0, pausedTimeLeft := 0, showPauseDialog := false },
        ctx := { initialProgress := 0, initialReward := 0, remainingTime := 600000,
                 endTime := 600000 } } := by
    unfold V0.startMining V0.miningEffectStart V0.initMachine
    norm_num
  have hacc : (V0.tick (V0.startMining V0.initMachine 0 0) 300000 0).app.accumulatedReward
      = 100 := by
    rw [hM0]
    obtain ⟨_, hr, _⟩ := v0_tick_run
      { app := { miningState := V0.MState.mining, progress := 0, timeLeft := 600000,
                 hashRate := 0, accumulatedReward := 0, pausedProgress := 0,
                 pausedReward := 0, pausedTimeLeft := 0, showPauseDialog := false },
        ctx := { initialProgress := 0, initialReward := 0, remainingTime := 600000,
                 endTime := 600000 } } 300000 0 rfl (by norm_num)
    rw [hr]
    norm_num [min_def]
  rw [hamount, hstop, hpause, hacc]
  exact ⟨by decide, by decide⟩

end ArcMiner
